import Mathlib

/-!
Verification development for the `payment-engine` repository.

The Rust source is shallowly embedded as follows:
* `Amount` (`fastnum::D256`; every amount entering the engine is rescaled to
  exactly 4 fractional digits, see `impl Deserialize for Transaction`) is
  modelled as `ℤ`, counting multiples of `10⁻⁴`: scale-4 fixed-point decimals
  are exactly the integer multiples of `10⁻⁴`, and the only operations the
  engine performs on them — addition, subtraction, comparison — are exact
  and transport along the bijection `d ↦ d·10⁴`. (A decimal amount `10`
  is the model value `100000`.)
* `u32` transaction ids and `u16` client ids are modelled as `ℕ` (no
  arithmetic is ever performed on ids, so overflow is irrelevant); the
  `u16` bound enters only through the `Engine`, whose client vector has the
  concrete length `u16::MAX as usize = 65535` from `Engine::default`.
* `HashMap<u32, Transaction>` (`Client.txs`) is modelled as a list of
  transactions, most recent first; every insertion in the source is guarded
  by `!contains_key`, so prepending is faithful and keys stay distinct.
  `get` is `List.find?` on the id, `contains_key` is `List.any`.
* `HashSet<u32>` (`Disputes.txs` / `Disputes.chargebacks`) is modelled as
  `Finset ℕ` with `insert` / `erase`, matching the set semantics of
  `HashSet::insert` / `HashSet::remove`.
* Rust functions that mutate `&mut self` become state-passing functions;
  `Result<(), ()>`-returning account operations become `Option Account`
  (`none` = `Err(())`, in which case the source leaves the account
  unchanged and the caller decides what to do).
* `Vec<Client>` indexing in `Engine::process_transaction` panics when the
  index is out of bounds, so the engine step returns `Option Engine` with
  `none` for the panic.
-/

/-- `type Amount = fastnum::D256;` — a scale-4 fixed-point decimal, embedded
as its integer number of `10⁻⁴` units. -/
abbrev Amount : Type := ℤ

/-- `enum TxPayload` from `transaction.rs`. -/
inductive TxPayload where
  | deposit (amount : Amount)
  | withdrawal (amount : Amount)
  | dispute
  | resolve
  | chargeback
deriving DecidableEq

/-- `struct Transaction` from `transaction.rs`. -/
structure Transaction where
  id : ℕ
  client : ℕ
  payload : TxPayload
deriving DecidableEq

/-- `Transaction::deposited_amount` from `transaction.rs`. -/
def Transaction.deposited_amount (t : Transaction) : Option Amount :=
  match t.payload with
  | .deposit amount => some amount
  | _ => none

/-- `struct Account` from `account.rs`; `Default` gives zero balances, unlocked. -/
structure Account where
  available : Amount := 0
  held : Amount := 0
  locked : Bool := false
deriving DecidableEq

/-- `Account::total_funds`. -/
def Account.total_funds (a : Account) : Amount :=
  a.available + a.held

/-- `Account::is_locked`. -/
def Account.is_locked (a : Account) : Bool :=
  a.locked

/-- `Account::deposit`: `available += amount`. -/
def Account.deposit (a : Account) (amount : Amount) : Account :=
  { a with available := a.available + amount }

/-- `Account::withdraw`: subtracts from `available` when `available >= amount`,
otherwise `Err(())` (modelled `none`, account unchanged at the call site). -/
def Account.withdraw (a : Account) (amount : Amount) : Option Account :=
  if amount ≤ a.available then
    some { a with available := a.available - amount }
  else
    none

/-- `Account::hold_funds`: moves `amount` from `available` to `held` when
`available >= amount`, otherwise `Err(())`. -/
def Account.hold_funds (a : Account) (amount : Amount) : Option Account :=
  if amount ≤ a.available then
    some { a with available := a.available - amount, held := a.held + amount }
  else
    none

/-- `Account::release_funds`: `held -= amount; available += amount`
(the source debug-asserts `held >= amount` and `!locked`). -/
def Account.release_funds (a : Account) (amount : Amount) : Account :=
  { a with held := a.held - amount, available := a.available + amount }

/-- `Account::chargeback`: `held -= amount; locked = true`
(the source debug-asserts `held >= amount` and `!locked`). -/
def Account.chargeback (a : Account) (amount : Amount) : Account :=
  { a with held := a.held - amount, locked := true }

/-- The debug assertion of `Account::release_funds` / `Account::chargeback`:
the account is unlocked and at least `amount` is held. -/
def Account.assertOk (a : Account) (amount : Amount) : Prop :=
  a.locked = false ∧ amount ≤ a.held

/-- `struct Disputes` from `client.rs`: the currently disputed ids and the
charged-back ids. -/
structure Disputes where
  txs : Finset ℕ := ∅
  chargebacks : Finset ℕ := ∅
deriving DecidableEq

/-- `Disputes::is_disputed`: membership in either set. -/
def Disputes.is_disputed (d : Disputes) (tx : ℕ) : Bool :=
  decide (tx ∈ d.txs) || decide (tx ∈ d.chargebacks)

/-- `Disputes::dispute`: `txs.insert(tx)`. -/
def Disputes.dispute (d : Disputes) (tx : ℕ) : Disputes :=
  { d with txs := insert tx d.txs }

/-- `Disputes::resolve`: `txs.remove(&tx)`. -/
def Disputes.resolve (d : Disputes) (tx : ℕ) : Disputes :=
  { d with txs := d.txs.erase tx }

/-- `Disputes::chargeback`: remove from `txs`; if it was present, record it
in `chargebacks`. -/
def Disputes.chargeback (d : Disputes) (tx : ℕ) : Disputes :=
  if tx ∈ d.txs then
    { d with txs := d.txs.erase tx, chargebacks := insert tx d.chargebacks }
  else
    { d with txs := d.txs.erase tx }

/-- `struct Client` from `client.rs`; `Default` is a fresh ledger. -/
structure Client where
  account : Account := {}
  disputes : Disputes := {}
  txs : List Transaction := []
deriving DecidableEq

/-- `HashMap::contains_key(&id)` on the client's history. -/
def Client.hasTx (c : Client) (id : ℕ) : Bool :=
  c.txs.any (fun t => t.id == id)

/-- `HashMap::get(&id)` on the client's history. -/
def Client.getTx (c : Client) (id : ℕ) : Option Transaction :=
  c.txs.find? (fun t => t.id == id)

/-- `Client::disputed_transaction`:
`self.txs.get(&id).filter(|_| self.disputes.is_disputed(id))`. -/
def Client.disputed_transaction (c : Client) (id : ℕ) : Option Transaction :=
  (c.getTx id).filter (fun _ => c.disputes.is_disputed id)

/-- `Client::process_transaction` from `client.rs`, arm for arm. -/
def Client.process_transaction (c : Client) (tx : Transaction) : Client :=
  if c.account.is_locked then c
  else
    match tx.payload with
    | .deposit amount =>
        if c.hasTx tx.id then c
        else
          { c with account := c.account.deposit amount, txs := tx :: c.txs }
    | .withdrawal amount =>
        if c.hasTx tx.id then c
        else
          match c.account.withdraw amount with
          | some a => { c with account := a, txs := tx :: c.txs }
          | none => c
    | .dispute =>
        if c.disputes.is_disputed tx.id then c
        else
          match c.getTx tx.id with
          | some original_tx =>
              match original_tx.deposited_amount with
              | some amount =>
                  match c.account.hold_funds amount with
                  | some a =>
                      { c with account := a, disputes := c.disputes.dispute tx.id }
                  | none => c
              | none => c
          | none => c
    | .resolve =>
        match c.disputed_transaction tx.id with
        | some original_tx =>
            match original_tx.deposited_amount with
            | some amount =>
                { c with account := c.account.release_funds amount,
                         disputes := c.disputes.resolve tx.id }
            | none => c
        | none => c
    | .chargeback =>
        match c.disputed_transaction tx.id with
        | some original_tx =>
            match original_tx.deposited_amount with
            | some amount =>
                { c with account := c.account.chargeback amount,
                         disputes := c.disputes.chargeback tx.id }
            | none => c
        | none => c

/-- Replaying a transaction stream through one client ledger, in input order. -/
def Client.processAll (c : Client) (txs : List Transaction) : Client :=
  txs.foldl Client.process_transaction c

/-- `struct Engine` from `lib.rs`: one client ledger per client id slot plus
the bit set of client ids seen so far. -/
structure Engine where
  clients : List Client
  seemClients : Finset ℕ

/-- `Engine::default`: `u16::MAX as usize` (= 65535) fresh client slots and an
empty seen set. -/
def Engine.default : Engine :=
  { clients := List.replicate 65535 {}, seemClients := ∅ }

/-- `Engine::process_transaction`: mark the client id seen, then index
`self.clients[tx.client as usize]`; the indexing panics (modelled `none`)
when `tx.client` is out of bounds. -/
def Engine.process_transaction (e : Engine) (tx : Transaction) : Option Engine :=
  if h : tx.client < e.clients.length then
    some { clients := e.clients.set tx.client ((e.clients.get ⟨tx.client, h⟩).process_transaction tx),
           seemClients := insert tx.client e.seemClients }
  else
    none

/-- Feeding a whole stream to the engine; `none` as soon as one step panics. -/
def Engine.processAll (e : Engine) : List Transaction → Option Engine
  | [] => some e
  | tx :: rest =>
      match e.process_transaction tx with
      | some e2 => e2.processAll rest
      | none => none

/-- `Engine::accounts`: iterate the seen ids in ascending order (a `BitSet`
iterates in increasing index order) and pair each with its client's account. -/
def Engine.accounts (e : Engine) : List (ℕ × Account) :=
  (e.seemClients.sort (· ≤ ·)).map (fun i => (i, (e.clients.getD i {}).account))

/-- An input transaction carries a non-negative amount (`Deposit`/`Withdrawal`)
or no amount at all. -/
def TxPayload.amountOk : TxPayload → Prop
  | .deposit a => 0 ≤ a
  | .withdrawal a => 0 ≤ a
  | _ => True

/-- The payload is a `Deposit` or a `Withdrawal`. -/
def TxPayload.isMonetary : TxPayload → Bool
  | .deposit _ => true
  | .withdrawal _ => true
  | _ => false

/-- The amount a history entry with this id contributes to the held funds:
the deposited amount of the stored transaction, `0` when the id is absent or
stored as a withdrawal. -/
def heldForL (l : List Transaction) (id : ℕ) : Amount :=
  (((l.find? (fun t => t.id == id)).bind Transaction.deposited_amount).getD 0)

/-- Sum of the deposited amounts of the ids currently in the disputed set. -/
def Client.heldSum (c : Client) : Amount :=
  c.disputes.txs.sum (heldForL c.txs)

/-- All the conditions under which the `Dispute` arm of
`Client::process_transaction` reaches `Account::hold_funds` successfully:
the id is neither disputed nor charged back, it is stored in the history as a
`Deposit`, and the deposited amount does not exceed the available funds. -/
def Client.disputeTakesEffect (c : Client) (id : ℕ) : Prop :=
  c.disputes.is_disputed id = false ∧
  ∃ t, c.getTx id = some t ∧ ∃ a, t.payload = .deposit a ∧ a ≤ c.account.available

/-- Acceptance of a `Deposit`/`Withdrawal` at the moment it is applied, in the
words of the spec: the id is not already in history, and a withdrawal
additionally needs `available >= amount`. -/
def Client.accepted (c : Client) (t : Transaction) : Bool :=
  match t.payload with
  | .deposit _ => ! c.hasTx t.id
  | .withdrawal a => ! c.hasTx t.id && decide (a ≤ c.account.available)
  | _ => false

/-- Sum of the amounts of all accepted deposits minus all accepted
withdrawals along a stream, the acceptance of each transaction judged in the
client state at its application time. -/
def Client.acceptedSum (c : Client) : List Transaction → Amount
  | [] => 0
  | t :: rest =>
      (if c.accepted t then
        match t.payload with
        | .deposit a => a
        | .withdrawal a => -a
        | _ => 0
      else 0)
      + (c.process_transaction t).acceptedSum rest

/-- One already-field-decoded CSV row, as the `Inner` helper of
`impl Deserialize for Transaction` sees it: the `type` tag, the client and
transaction ids, and the optional decimal amount (modelled as an exact `ℚ`
since `fastnum::D256` parses decimal text exactly). -/
structure InputRecord where
  typ : String
  client : ℕ
  tx : ℕ
  amount : Option ℚ

/-- `D256::rescale(4)` on a parsed decimal: round to an integer number of
`10⁻⁴` units with fastnum's default rounding mode `HalfUp` (round to nearest,
ties away from zero). -/
def rescale4 (q : ℚ) : Amount :=
  if 0 ≤ q then ⌊q * 10000 + 1 / 2⌋ else -⌊-q * 10000 + 1 / 2⌋

/-- The body of `impl Deserialize for Transaction`: map the `type` tag to a
payload, requiring an amount for `deposit`/`withdrawal` (after `rescale(4)`)
and rejecting unknown tags; `none` is a fatal deserialization error. -/
def Transaction.deserialize (r : InputRecord) : Option Transaction :=
  let amount := r.amount.map rescale4
  match r.typ with
  | "deposit" =>
      match amount with
      | some a => some { id := r.tx, client := r.client, payload := .deposit a }
      | none => none
  | "withdrawal" =>
      match amount with
      | some a => some { id := r.tx, client := r.client, payload := .withdrawal a }
      | none => none
  | "dispute" => some { id := r.tx, client := r.client, payload := .dispute }
  | "resolve" => some { id := r.tx, client := r.client, payload := .resolve }
  | "chargeback" => some { id := r.tx, client := r.client, payload := .chargeback }
  | _ => none

/-! ### Basic facts about the embedded operations -/

theorem Transaction.deposited_amount_eq_some {t : Transaction} {a : Amount} :
    t.deposited_amount = some a ↔ t.payload = .deposit a := by
  cases t with
  | mk id client p => cases p <;> simp [Transaction.deposited_amount]

theorem Transaction.deposited_amount_eq_none {t : Transaction} :
    t.deposited_amount = none ↔ ∀ a, t.payload ≠ .deposit a := by
  cases t with
  | mk id client p => cases p <;> simp [Transaction.deposited_amount]

theorem Disputes.is_disputed_false_iff (d : Disputes) (id : ℕ) :
    d.is_disputed id = false ↔ id ∉ d.txs ∧ id ∉ d.chargebacks := by
  simp [Disputes.is_disputed]

theorem Disputes.is_disputed_true_iff (d : Disputes) (id : ℕ) :
    d.is_disputed id = true ↔ id ∈ d.txs ∨ id ∈ d.chargebacks := by
  simp [Disputes.is_disputed]

theorem Client.hasTx_false_iff (c : Client) (id : ℕ) :
    c.hasTx id = false ↔ ∀ t ∈ c.txs, t.id ≠ id := by
  simp [Client.hasTx]

theorem Client.getTx_mem {c : Client} {id : ℕ} {t : Transaction}
    (h : c.getTx id = some t) : t ∈ c.txs ∧ t.id = id := by
  refine ⟨List.mem_of_find?_eq_some h, ?_⟩
  have := List.find?_some h
  simpa using this

theorem Client.getTx_key_ne {c : Client} {id id2 : ℕ} {t : Transaction}
    (h : c.getTx id = some t) (hfresh : c.hasTx id2 = false) : id ≠ id2 := by
  obtain ⟨hmem, hid⟩ := Client.getTx_mem h
  intro hcontra
  exact ((Client.hasTx_false_iff c id2).mp hfresh) t hmem (hcontra ▸ hid)

theorem Client.disputed_transaction_eq_some {c : Client} {id : ℕ} {t : Transaction} :
    c.disputed_transaction id = some t ↔
      c.getTx id = some t ∧ c.disputes.is_disputed id = true := by
  unfold Client.disputed_transaction
  cases hg : c.getTx id with
  | none => simp [Option.filter]
  | some u =>
      simp only [Option.filter]
      by_cases hd : c.disputes.is_disputed id = true
      · simp [hd]
      · simp [hd]

/-! ### Arm-by-arm characterization of `Client.process_transaction` -/

theorem Client.process_locked {c : Client} (tx : Transaction)
    (h : c.account.locked = true) : c.process_transaction tx = c := by
  simp [Client.process_transaction, Account.is_locked, h]

theorem Client.process_deposit_dup {c : Client} {tx : Transaction} {a : Amount}
    (hl : c.account.locked = false) (hp : tx.payload = .deposit a)
    (hd : c.hasTx tx.id = true) : c.process_transaction tx = c := by
  simp [Client.process_transaction, Account.is_locked, hl, hp, hd]

theorem Client.process_deposit_new {c : Client} {tx : Transaction} {a : Amount}
    (hl : c.account.locked = false) (hp : tx.payload = .deposit a)
    (hd : c.hasTx tx.id = false) :
    c.process_transaction tx =
      { c with account := c.account.deposit a, txs := tx :: c.txs } := by
  simp [Client.process_transaction, Account.is_locked, hl, hp, hd]

theorem Client.process_withdrawal_dup {c : Client} {tx : Transaction} {a : Amount}
    (hl : c.account.locked = false) (hp : tx.payload = .withdrawal a)
    (hd : c.hasTx tx.id = true) : c.process_transaction tx = c := by
  simp [Client.process_transaction, Account.is_locked, hl, hp, hd]

theorem Client.process_withdrawal_ok {c : Client} {tx : Transaction} {a : Amount}
    (hl : c.account.locked = false) (hp : tx.payload = .withdrawal a)
    (hd : c.hasTx tx.id = false) (hle : a ≤ c.account.available) :
    c.process_transaction tx =
      { c with account := { c.account with available := c.account.available - a },
               txs := tx :: c.txs } := by
  simp [Client.process_transaction, Account.is_locked, hl, hp, hd, Account.withdraw, hle]

theorem Client.process_withdrawal_fail {c : Client} {tx : Transaction} {a : Amount}
    (hl : c.account.locked = false) (hp : tx.payload = .withdrawal a)
    (hd : c.hasTx tx.id = false) (hle : ¬ a ≤ c.account.available) :
    c.process_transaction tx = c := by
  simp [Client.process_transaction, Account.is_locked, hl, hp, hd, Account.withdraw, hle]

theorem Client.process_dispute_disputed {c : Client} {tx : Transaction}
    (hl : c.account.locked = false) (hp : tx.payload = .dispute)
    (hd : c.disputes.is_disputed tx.id = true) : c.process_transaction tx = c := by
  simp [Client.process_transaction, Account.is_locked, hl, hp, hd]

theorem Client.process_dispute_noTx {c : Client} {tx : Transaction}
    (hl : c.account.locked = false) (hp : tx.payload = .dispute)
    (hd : c.disputes.is_disputed tx.id = false) (hg : c.getTx tx.id = none) :
    c.process_transaction tx = c := by
  simp [Client.process_transaction, Account.is_locked, hl, hp, hd, hg]

theorem Client.process_dispute_notDeposit {c : Client} {tx t : Transaction}
    (hl : c.account.locked = false) (hp : tx.payload = .dispute)
    (hd : c.disputes.is_disputed tx.id = false) (hg : c.getTx tx.id = some t)
    (hda : t.deposited_amount = none) : c.process_transaction tx = c := by
  simp [Client.process_transaction, Account.is_locked, hl, hp, hd, hg, hda]

theorem Client.process_dispute_ok {c : Client} {tx t : Transaction} {a : Amount}
    (hl : c.account.locked = false) (hp : tx.payload = .dispute)
    (hd : c.disputes.is_disputed tx.id = false) (hg : c.getTx tx.id = some t)
    (hda : t.deposited_amount = some a) (hle : a ≤ c.account.available) :
    c.process_transaction tx =
      { c with account := { c.account with available := c.account.available - a,
                                           held := c.account.held + a },
               disputes := c.disputes.dispute tx.id } := by
  simp [Client.process_transaction, Account.is_locked, hl, hp, hd, hg, hda,
        Account.hold_funds, hle]

theorem Client.process_dispute_insufficient {c : Client} {tx t : Transaction} {a : Amount}
    (hl : c.account.locked = false) (hp : tx.payload = .dispute)
    (hd : c.disputes.is_disputed tx.id = false) (hg : c.getTx tx.id = some t)
    (hda : t.deposited_amount = some a) (hle : ¬ a ≤ c.account.available) :
    c.process_transaction tx = c := by
  simp [Client.process_transaction, Account.is_locked, hl, hp, hd, hg, hda,
        Account.hold_funds, hle]

theorem Client.process_resolve_none {c : Client} {tx : Transaction}
    (hl : c.account.locked = false) (hp : tx.payload = .resolve)
    (hg : c.disputed_transaction tx.id = none) : c.process_transaction tx = c := by
  simp [Client.process_transaction, Account.is_locked, hl, hp, hg]

theorem Client.process_resolve_notDeposit {c : Client} {tx t : Transaction}
    (hl : c.account.locked = false) (hp : tx.payload = .resolve)
    (hg : c.disputed_transaction tx.id = some t) (hda : t.deposited_amount = none) :
    c.process_transaction tx = c := by
  simp [Client.process_transaction, Account.is_locked, hl, hp, hg, hda]

theorem Client.process_resolve_ok {c : Client} {tx t : Transaction} {a : Amount}
    (hl : c.account.locked = false) (hp : tx.payload = .resolve)
    (hg : c.disputed_transaction tx.id = some t) (hda : t.deposited_amount = some a) :
    c.process_transaction tx =
      { c with account := c.account.release_funds a,
               disputes := c.disputes.resolve tx.id } := by
  simp [Client.process_transaction, Account.is_locked, hl, hp, hg, hda]

theorem Client.process_chargeback_none {c : Client} {tx : Transaction}
    (hl : c.account.locked = false) (hp : tx.payload = .chargeback)
    (hg : c.disputed_transaction tx.id = none) : c.process_transaction tx = c := by
  simp [Client.process_transaction, Account.is_locked, hl, hp, hg]

theorem Client.process_chargeback_notDeposit {c : Client} {tx t : Transaction}
    (hl : c.account.locked = false) (hp : tx.payload = .chargeback)
    (hg : c.disputed_transaction tx.id = some t) (hda : t.deposited_amount = none) :
    c.process_transaction tx = c := by
  simp [Client.process_transaction, Account.is_locked, hl, hp, hg, hda]

theorem Client.process_chargeback_ok {c : Client} {tx t : Transaction} {a : Amount}
    (hl : c.account.locked = false) (hp : tx.payload = .chargeback)
    (hg : c.disputed_transaction tx.id = some t) (hda : t.deposited_amount = some a) :
    c.process_transaction tx =
      { c with account := c.account.chargeback a,
               disputes := c.disputes.chargeback tx.id } := by
  simp [Client.process_transaction, Account.is_locked, hl, hp, hg, hda]

/-! ### The ledger invariant -/

theorem heldForL_cons_ne {tx : Transaction} {l : List Transaction} {id : ℕ}
    (h : tx.id ≠ id) : heldForL (tx :: l) id = heldForL l id := by
  unfold heldForL
  rw [List.find?_cons_of_neg]
  simpa using h

theorem heldForL_eq {l : List Transaction} {id : ℕ} {t : Transaction} {a : Amount}
    (hg : l.find? (fun u => u.id == id) = some t) (hp : t.payload = .deposit a) :
    heldForL l id = a := by
  rw [heldForL, hg]
  simp [Option.bind, Transaction.deposited_amount_eq_some.mpr hp]

theorem heldForL_nonneg {l : List Transaction} (id : ℕ)
    (hok : ∀ t ∈ l, t.payload.amountOk) : 0 ≤ heldForL l id := by
  unfold heldForL
  cases hg : l.find? (fun u => u.id == id) with
  | none => simp
  | some t =>
      have hmem := List.mem_of_find?_eq_some hg
      have hamt := hok t hmem
      cases hp : t.payload with
      | deposit a =>
          rw [hp] at hamt
          simpa [Option.bind, Transaction.deposited_amount_eq_some.mpr hp] using hamt
      | withdrawal a => simp [Option.bind, Transaction.deposited_amount, hp]
      | dispute => simp [Option.bind, Transaction.deposited_amount, hp]
      | resolve => simp [Option.bind, Transaction.deposited_amount, hp]
      | chargeback => simp [Option.bind, Transaction.deposited_amount, hp]

/-- The reachable-state invariant of one client ledger: available funds never
go negative, the held funds are exactly the sum of the deposited amounts of
the currently disputed ids, the history only stores transactions with
well-formed (non-negative) amounts, every disputed id is stored in history as
a `Deposit`, and the account is locked exactly when some chargeback has been
accepted (recorded in `Disputes.chargebacks`). -/
structure ClientInv (c : Client) : Prop where
  avail_nonneg : 0 ≤ c.account.available
  held_eq : c.account.held = c.heldSum
  tx_amounts : ∀ t ∈ c.txs, t.payload.amountOk
  disputed_deposits : ∀ id ∈ c.disputes.txs,
    ∃ t, c.getTx id = some t ∧ ∃ a, t.payload = .deposit a
  locked_iff : c.account.locked = true ↔ c.disputes.chargebacks ≠ ∅

theorem ClientInv.heldSum_nonneg {c : Client} (h : ClientInv c) : 0 ≤ c.heldSum :=
  Finset.sum_nonneg (fun id _ => heldForL_nonneg id h.tx_amounts)

theorem ClientInv.held_nonneg {c : Client} (h : ClientInv c) : 0 ≤ c.account.held := by
  rw [h.held_eq]; exact h.heldSum_nonneg

theorem ClientInv.le_heldSum {c : Client} (h : ClientInv c) {id : ℕ} {t : Transaction}
    {a : Amount} (hid : id ∈ c.disputes.txs) (hg : c.getTx id = some t)
    (hp : t.payload = .deposit a) : a ≤ c.heldSum := by
  have := Finset.single_le_sum (f := heldForL c.txs)
    (fun i _ => heldForL_nonneg i h.tx_amounts) hid
  rwa [heldForL_eq hg hp] at this

theorem heldSum_prepend {c : Client} (tx : Transaction)
    (hdd : ∀ id ∈ c.disputes.txs, ∃ t, c.getTx id = some t ∧ ∃ a, t.payload = .deposit a)
    (hfresh : c.hasTx tx.id = false) :
    c.disputes.txs.sum (heldForL (tx :: c.txs)) = c.disputes.txs.sum (heldForL c.txs) := by
  apply Finset.sum_congr rfl
  intro id hid
  obtain ⟨t, hg, _⟩ := hdd id hid
  have hne : id ≠ tx.id := Client.getTx_key_ne hg hfresh
  exact heldForL_cons_ne (fun h => hne h.symm)

theorem clientInv_default : ClientInv {} := by
  refine ⟨le_refl 0, ?_, ?_, ?_, ?_⟩
  · simp [Client.heldSum]
  · intro t ht; simp at ht
  · intro id hid; simp at hid
  · simp

/-- `Client::process_transaction` preserves the ledger invariant, provided the
incoming transaction carries a non-negative amount (if any). -/
theorem ClientInv.step {c : Client} {tx : Transaction}
    (hInv : ClientInv c) (hamt : tx.payload.amountOk) :
    ClientInv (c.process_transaction tx) := by
  by_cases hlock : c.account.locked = true
  · rw [Client.process_locked tx hlock]; exact hInv
  have hl : c.account.locked = false := by
    cases h : c.account.locked
    · rfl
    · exact absurd h hlock
  cases hp : tx.payload with
  | deposit a =>
      cases hd : c.hasTx tx.id with
      | true => rw [Client.process_deposit_dup hl hp hd]; exact hInv
      | false =>
          rw [Client.process_deposit_new hl hp hd]
          rw [hp] at hamt
          simp only [TxPayload.amountOk] at hamt
          refine ⟨?_, ?_, ?_, ?_, ?_⟩
          · show (0 : ℤ) ≤ c.account.available + a
            have := hInv.avail_nonneg
            linarith
          · show c.account.held = c.disputes.txs.sum (heldForL (tx :: c.txs))
            rw [heldSum_prepend tx hInv.disputed_deposits hd]
            exact hInv.held_eq
          · intro t ht
            rcases List.mem_cons.mp ht with h | h
            · subst h; simpa [hp, TxPayload.amountOk] using hamt
            · exact hInv.tx_amounts t h
          · intro id hid
            obtain ⟨t, hg, ha⟩ := hInv.disputed_deposits id hid
            refine ⟨t, ?_, ha⟩
            have hne : id ≠ tx.id := Client.getTx_key_ne hg hd
            show (tx :: c.txs).find? (fun u => u.id == id) = some t
            rw [List.find?_cons_of_neg]
            · exact hg
            · simpa using hne.symm
          · simpa [Account.deposit] using hInv.locked_iff
  | withdrawal a =>
      cases hd : c.hasTx tx.id with
      | true => rw [Client.process_withdrawal_dup hl hp hd]; exact hInv
      | false =>
          by_cases hle : a ≤ c.account.available
          · rw [Client.process_withdrawal_ok hl hp hd hle]
            rw [hp] at hamt
            simp only [TxPayload.amountOk] at hamt
            refine ⟨?_, ?_, ?_, ?_, ?_⟩
            · show (0 : ℤ) ≤ c.account.available - a
              linarith
            · show c.account.held = c.disputes.txs.sum (heldForL (tx :: c.txs))
              rw [heldSum_prepend tx hInv.disputed_deposits hd]
              exact hInv.held_eq
            · intro t ht
              rcases List.mem_cons.mp ht with h | h
              · subst h; simpa [hp, TxPayload.amountOk] using hamt
              · exact hInv.tx_amounts t h
            · intro id hid
              obtain ⟨t, hg, ha⟩ := hInv.disputed_deposits id hid
              refine ⟨t, ?_, ha⟩
              have hne : id ≠ tx.id := Client.getTx_key_ne hg hd
              show (tx :: c.txs).find? (fun u => u.id == id) = some t
              rw [List.find?_cons_of_neg]
              · exact hg
              · simpa using hne.symm
            · simpa using hInv.locked_iff
          · rw [Client.process_withdrawal_fail hl hp hd hle]; exact hInv
  | dispute =>
      cases hdis : c.disputes.is_disputed tx.id with
      | true => rw [Client.process_dispute_disputed hl hp hdis]; exact hInv
      | false =>
          cases hg : c.getTx tx.id with
          | none => rw [Client.process_dispute_noTx hl hp hdis hg]; exact hInv
          | some t =>
              cases hda : t.deposited_amount with
              | none => rw [Client.process_dispute_notDeposit hl hp hdis hg hda]; exact hInv
              | some a =>
                  by_cases hle : a ≤ c.account.available
                  · rw [Client.process_dispute_ok hl hp hdis hg hda hle]
                    have hpd : t.payload = .deposit a :=
                      Transaction.deposited_amount_eq_some.mp hda
                    have hnotmem : tx.id ∉ c.disputes.txs :=
                      ((Disputes.is_disputed_false_iff _ _).mp hdis).1
                    refine ⟨?_, ?_, ?_, ?_, ?_⟩
                    · show (0 : ℤ) ≤ c.account.available - a
                      linarith
                    · show c.account.held + a =
                        (insert tx.id c.disputes.txs).sum (heldForL c.txs)
                      rw [Finset.sum_insert hnotmem, heldForL_eq hg hpd,
                          hInv.held_eq]
                      simp only [Client.heldSum]
                      ring
                    · exact hInv.tx_amounts
                    · intro id hid
                      simp only [Disputes.dispute] at hid
                      rcases Finset.mem_insert.mp hid with h | h
                      · subst h; exact ⟨t, hg, a, hpd⟩
                      · exact hInv.disputed_deposits id h
                    · simpa using hInv.locked_iff
                  · rw [Client.process_dispute_insufficient hl hp hdis hg hda hle]
                    exact hInv
  | resolve =>
      cases hg : c.disputed_transaction tx.id with
      | none => rw [Client.process_resolve_none hl hp hg]; exact hInv
      | some t =>
          cases hda : t.deposited_amount with
          | none => rw [Client.process_resolve_notDeposit hl hp hg hda]; exact hInv
          | some a =>
              rw [Client.process_resolve_ok hl hp hg hda]
              have hpd : t.payload = .deposit a :=
                Transaction.deposited_amount_eq_some.mp hda
              obtain ⟨hgt, hdis⟩ := Client.disputed_transaction_eq_some.mp hg
              have hcb : c.disputes.chargebacks = ∅ := by
                by_contra hne
                rw [hInv.locked_iff.mpr hne] at hl
                cases hl
              have hmem : tx.id ∈ c.disputes.txs := by
                rcases (Disputes.is_disputed_true_iff _ _).mp hdis with h | h
                · exact h
                · rw [hcb] at h; simp at h
              have ha0 : 0 ≤ a := by
                have := hInv.tx_amounts t (Client.getTx_mem hgt).1
                rw [hpd] at this
                simpa [TxPayload.amountOk] using this
              refine ⟨?_, ?_, ?_, ?_, ?_⟩
              · show (0 : ℤ) ≤ c.account.available + a
                have := hInv.avail_nonneg
                linarith
              · show c.account.held - a =
                  (c.disputes.txs.erase tx.id).sum (heldForL c.txs)
                have hsum := Finset.sum_erase_add c.disputes.txs (heldForL c.txs) hmem
                rw [heldForL_eq hgt hpd] at hsum
                have hh := hInv.held_eq
                simp only [Client.heldSum] at hh
                linarith [hsum, hh]
              · exact hInv.tx_amounts
              · intro id hid
                simp only [Disputes.resolve] at hid
                exact hInv.disputed_deposits id (Finset.mem_of_mem_erase hid)
              · simpa [Account.release_funds, Disputes.resolve] using hInv.locked_iff
  | chargeback =>
      cases hg : c.disputed_transaction tx.id with
      | none => rw [Client.process_chargeback_none hl hp hg]; exact hInv
      | some t =>
          cases hda : t.deposited_amount with
          | none => rw [Client.process_chargeback_notDeposit hl hp hg hda]; exact hInv
          | some a =>
              rw [Client.process_chargeback_ok hl hp hg hda]
              have hpd : t.payload = .deposit a :=
                Transaction.deposited_amount_eq_some.mp hda
              obtain ⟨hgt, hdis⟩ := Client.disputed_transaction_eq_some.mp hg
              have hcb : c.disputes.chargebacks = ∅ := by
                by_contra hne
                rw [hInv.locked_iff.mpr hne] at hl
                cases hl
              have hmem : tx.id ∈ c.disputes.txs := by
                rcases (Disputes.is_disputed_true_iff _ _).mp hdis with h | h
                · exact h
                · rw [hcb] at h; simp at h
              rw [Disputes.chargeback, if_pos hmem]
              refine ⟨?_, ?_, ?_, ?_, ?_⟩
              · simp only [Account.chargeback]
                exact hInv.avail_nonneg
              · show c.account.held - a =
                  (c.disputes.txs.erase tx.id).sum (heldForL c.txs)
                have hsum := Finset.sum_erase_add c.disputes.txs (heldForL c.txs) hmem
                rw [heldForL_eq hgt hpd] at hsum
                have hh := hInv.held_eq
                simp only [Client.heldSum] at hh
                linarith [hsum, hh]
              · exact hInv.tx_amounts
              · intro id hid
                exact hInv.disputed_deposits id (Finset.mem_of_mem_erase hid)
              · simp [Account.chargeback]

/-- The ledger invariant holds in every state reachable from a state
satisfying it by a stream of transactions with well-formed amounts. -/
theorem ClientInv.preserved {c : Client} {l : List Transaction}
    (hInv : ClientInv c) (h : ∀ t ∈ l, t.payload.amountOk) :
    ClientInv (c.processAll l) := by
  induction l generalizing c with
  | nil => exact hInv
  | cons t rest ih =>
      have hstep : ClientInv (c.process_transaction t) :=
        hInv.step (h t (List.mem_cons_self t rest))
      have hrest : ∀ u ∈ rest, u.payload.amountOk :=
        fun u hu => h u (List.mem_cons_of_mem t hu)
      simpa [Client.processAll] using ih hstep hrest

instance : DecidablePred TxPayload.amountOk
  | .deposit a => inferInstanceAs (Decidable (0 ≤ a))
  | .withdrawal a => inferInstanceAs (Decidable (0 ≤ a))
  | .dispute => inferInstanceAs (Decidable True)
  | .resolve => inferInstanceAs (Decidable True)
  | .chargeback => inferInstanceAs (Decidable True)

/-- A deposit of decimal amount 10 (= 100000 units of `10⁻⁴`), tx id 1. -/
def sampleDeposit : Transaction := { id := 1, client := 1, payload := .deposit 100000 }

/-- A dispute referencing tx id 1. -/
def sampleDispute : Transaction := { id := 1, client := 1, payload := .dispute }

/-- A resolve referencing tx id 1. -/
def sampleResolve : Transaction := { id := 1, client := 1, payload := .resolve }

/-- A chargeback referencing tx id 1. -/
def sampleChargeback : Transaction := { id := 1, client := 1, payload := .chargeback }

/-- Claim C1: for every sequence of transactions with non-negative amounts
applied to a fresh client ledger via `process_transaction`, after every
prefix of the sequence the account satisfies `available >= 0`, `held >= 0`,
`total == available + held`, and `locked == false` unless a chargeback has
been accepted for that client (`Disputes.chargebacks` records exactly the
accepted chargebacks, so "no chargeback accepted" is `chargebacks = ∅`). -/
theorem claim_C1_invariants (txs : List Transaction)
    (hok : ∀ t ∈ txs, t.payload.amountOk) (n : ℕ) :
    0 ≤ (Client.processAll {} (txs.take n)).account.available ∧
    0 ≤ (Client.processAll {} (txs.take n)).account.held ∧
    (Client.processAll {} (txs.take n)).account.total_funds =
      (Client.processAll {} (txs.take n)).account.available +
      (Client.processAll {} (txs.take n)).account.held ∧
    ((Client.processAll {} (txs.take n)).disputes.chargebacks = ∅ →
      (Client.processAll {} (txs.take n)).account.locked = false) := by
  have hInv : ClientInv (Client.processAll {} (txs.take n)) :=
    clientInv_default.preserved (fun t ht => hok t (List.mem_of_mem_take ht))
  refine ⟨hInv.avail_nonneg, hInv.held_nonneg, rfl, ?_⟩
  intro hcb
  cases hlk : (Client.processAll {} (txs.take n)).account.locked
  · rfl
  · exact absurd hcb (hInv.locked_iff.mp hlk)

/-- Witness for C1: the deposit–dispute–chargeback stream, full prefix. -/
theorem claim_C1_witness :
    (∀ t ∈ [sampleDeposit, sampleDispute, sampleChargeback], t.payload.amountOk) ∧
    (0 ≤ (Client.processAll {} ([sampleDeposit, sampleDispute, sampleChargeback].take 3)).account.available ∧
     0 ≤ (Client.processAll {} ([sampleDeposit, sampleDispute, sampleChargeback].take 3)).account.held ∧
     (Client.processAll {} ([sampleDeposit, sampleDispute, sampleChargeback].take 3)).account.total_funds =
       (Client.processAll {} ([sampleDeposit, sampleDispute, sampleChargeback].take 3)).account.available +
       (Client.processAll {} ([sampleDeposit, sampleDispute, sampleChargeback].take 3)).account.held ∧
     ((Client.processAll {} ([sampleDeposit, sampleDispute, sampleChargeback].take 3)).disputes.chargebacks = ∅ →
       (Client.processAll {} ([sampleDeposit, sampleDispute, sampleChargeback].take 3)).account.locked = false)) :=
  ⟨by decide, claim_C1_invariants [sampleDeposit, sampleDispute, sampleChargeback] (by decide) 3⟩

/-- Claim C2: in every state reachable by a fresh client through
`process_transaction` with non-negative amounts, the held funds equal the sum
of the deposited amounts of the ids in the disputed set; consequently,
whenever the `Resolve`/`Chargeback` arms reach `Account.release_funds` or
`Account.chargeback` — which happens exactly when the account is unlocked
(outer guard) and `disputed_transaction` returns a stored deposit — the debug
assertions of those operations hold: the account is unlocked and
`held >= amount`. -/
theorem claim_C2_held_safety (txs : List Transaction)
    (hok : ∀ t ∈ txs, t.payload.amountOk) :
    (Client.processAll {} txs).account.held = (Client.processAll {} txs).heldSum ∧
    (∀ id t a, (Client.processAll {} txs).account.locked = false →
      (Client.processAll {} txs).disputed_transaction id = some t →
      t.deposited_amount = some a →
      (Client.processAll {} txs).account.assertOk a) := by
  have hInv : ClientInv (Client.processAll {} txs) := clientInv_default.preserved hok
  refine ⟨hInv.held_eq, ?_⟩
  intro id t a hl hg hda
  have hpd := Transaction.deposited_amount_eq_some.mp hda
  obtain ⟨hgt, hdis⟩ := Client.disputed_transaction_eq_some.mp hg
  have hcb : (Client.processAll {} txs).disputes.chargebacks = ∅ := by
    by_contra hne
    rw [hInv.locked_iff.mpr hne] at hl
    cases hl
  have hmem : id ∈ (Client.processAll {} txs).disputes.txs := by
    rcases (Disputes.is_disputed_true_iff _ _).mp hdis with h | h
    · exact h
    · rw [hcb] at h; simp at h
  refine ⟨hl, ?_⟩
  rw [hInv.held_eq]
  exact hInv.le_heldSum hmem hgt hpd

/-- Witness for C2: deposit then dispute; the held funds are the disputed
deposit's amount. -/
theorem claim_C2_witness :
    (∀ t ∈ [sampleDeposit, sampleDispute], t.payload.amountOk) ∧
    ((Client.processAll {} [sampleDeposit, sampleDispute]).account.held =
       (Client.processAll {} [sampleDeposit, sampleDispute]).heldSum ∧
     (∀ id t a,
       (Client.processAll {} [sampleDeposit, sampleDispute]).account.locked = false →
       (Client.processAll {} [sampleDeposit, sampleDispute]).disputed_transaction id = some t →
       t.deposited_amount = some a →
       (Client.processAll {} [sampleDeposit, sampleDispute]).account.assertOk a)) :=
  ⟨by decide, claim_C2_held_safety [sampleDeposit, sampleDispute] (by decide)⟩

/-- Claim C4: `Deposit(id=1, amt=10)`, `Dispute(1)`, `Chargeback(1)` on a
fresh client yields `available=0, held=0, total=0, locked=true` (amounts in
`10⁻⁴` units, so decimal 10 is 100000); and once a client's account is
locked, every transaction — and hence every stream of transactions — is a
no-op leaving the entire client state unchanged. -/
theorem claim_C4_chargeback_locks :
    ((Client.processAll {} [sampleDeposit, sampleDispute, sampleChargeback]).account.available = 0 ∧
     (Client.processAll {} [sampleDeposit, sampleDispute, sampleChargeback]).account.held = 0 ∧
     (Client.processAll {} [sampleDeposit, sampleDispute, sampleChargeback]).account.total_funds = 0 ∧
     (Client.processAll {} [sampleDeposit, sampleDispute, sampleChargeback]).account.locked = true) ∧
    (∀ c : Client, c.account.locked = true →
      (∀ tx, c.process_transaction tx = c) ∧ (∀ l, c.processAll l = c)) := by
  constructor
  · refine ⟨by decide, by decide, by decide, by decide⟩
  · intro c hlk
    refine ⟨fun tx => Client.process_locked tx hlk, ?_⟩
    intro l
    induction l with
    | nil => rfl
    | cons t rest ih =>
        show Client.processAll (c.process_transaction t) rest = c
        rw [Client.process_locked t hlk]
        exact ih

/-- A concrete locked client with empty balances. -/
def lockedClient : Client := { account := { available := 0, held := 0, locked := true } }

/-- Witness for C4: a locked client absorbs a deposit and a whole stream. -/
theorem claim_C4_witness :
    lockedClient.account.locked = true ∧
    lockedClient.process_transaction sampleDeposit = lockedClient ∧
    Client.processAll lockedClient [sampleDeposit, sampleResolve] = lockedClient :=
  ⟨by decide,
   (claim_C4_chargeback_locks.2 lockedClient (by decide)).1 sampleDeposit,
   (claim_C4_chargeback_locks.2 lockedClient (by decide)).2 [sampleDeposit, sampleResolve]⟩

/-- Claim C5: on an unlocked client, a `Dispute` referencing `id` takes
effect — moving the stored deposit's amount from available to held and
inserting `id` into the disputed set — exactly when `id` is stored in
history as a `Deposit`, is not already disputed or charged back, and the
deposit's amount is at most the available funds; in every other case the
entire client state is unchanged. -/
theorem claim_C5_dispute_iff (c : Client) (id cl : ℕ)
    (hl : c.account.locked = false) :
    (∀ t a, c.getTx id = some t → t.payload = .deposit a →
       c.disputes.is_disputed id = false → a ≤ c.account.available →
       c.process_transaction { id := id, client := cl, payload := .dispute } =
         { c with account := { c.account with available := c.account.available - a,
                                              held := c.account.held + a },
                  disputes := c.disputes.dispute id }) ∧
    (¬ c.disputeTakesEffect id →
       c.process_transaction { id := id, client := cl, payload := .dispute } = c) := by
  constructor
  · intro t a hg hp hdis hle
    exact Client.process_dispute_ok hl rfl hdis hg
      (Transaction.deposited_amount_eq_some.mpr hp) hle
  · intro hno
    by_cases hdis : c.disputes.is_disputed id = false
    · cases hg : c.getTx id with
      | none => exact Client.process_dispute_noTx hl rfl hdis hg
      | some t =>
          cases hda : t.deposited_amount with
          | none => exact Client.process_dispute_notDeposit hl rfl hdis hg hda
          | some a =>
              have hpd := Transaction.deposited_amount_eq_some.mp hda
              have hnle : ¬ a ≤ c.account.available := by
                intro hle
                exact hno ⟨hdis, t, hg, a, hpd, hle⟩
              exact Client.process_dispute_insufficient hl rfl hdis hg hda hnle
    · have hdis2 : c.disputes.is_disputed id = true := by
        cases h : c.disputes.is_disputed id
        · exact absurd h hdis
        · rfl
      exact Client.process_dispute_disputed hl rfl hdis2

/-- Witness for C5: disputing the stored deposit on an unlocked client with
sufficient available funds takes effect. -/
theorem claim_C5_witness :
    (Client.processAll {} [sampleDeposit]).account.locked = false ∧
    (Client.processAll {} [sampleDeposit]).process_transaction
        { id := 1, client := 1, payload := .dispute } =
      { Client.processAll {} [sampleDeposit] with
        account := { (Client.processAll {} [sampleDeposit]).account with
                     available := (Client.processAll {} [sampleDeposit]).account.available - 100000,
                     held := (Client.processAll {} [sampleDeposit]).account.held + 100000 },
        disputes := (Client.processAll {} [sampleDeposit]).disputes.dispute 1 } :=
  ⟨by decide,
   (claim_C5_dispute_iff (Client.processAll {} [sampleDeposit]) 1 1 (by decide)).1
     sampleDeposit 100000 (by decide) (by decide) (by decide) (by decide)⟩

/-- Folding a deposit/withdrawal-only stream keeps `held = 0` and
`locked = false`, and changes the total by exactly the accepted sum. -/
theorem monetary_fold : ∀ (l : List Transaction) (c : Client),
    (∀ t ∈ l, t.payload.isMonetary = true) →
    c.account.held = 0 → c.account.locked = false →
    (c.processAll l).account.held = 0 ∧
    (c.processAll l).account.locked = false ∧
    (c.processAll l).account.total_funds = c.account.total_funds + c.acceptedSum l := by
  intro l
  induction l with
  | nil =>
      intro c _ hheld hlk
      exact ⟨hheld, hlk, by simp [Client.processAll, Client.acceptedSum]⟩
  | cons t rest ih =>
      intro c hdw hheld hlk
      have hm : t.payload.isMonetary = true := hdw t (List.mem_cons_self t rest)
      have hrest : ∀ u ∈ rest, u.payload.isMonetary = true :=
        fun u hu => hdw u (List.mem_cons_of_mem t hu)
      have hAll : c.processAll (t :: rest) =
          (c.process_transaction t).processAll rest := rfl
      have hSum : c.acceptedSum (t :: rest) =
          (if c.accepted t then
            match t.payload with
            | .deposit a => a
            | .withdrawal a => -a
            | _ => 0
          else 0) + (c.process_transaction t).acceptedSum rest := rfl
      cases hp : t.payload with
      | deposit a =>
          by_cases hd : c.hasTx t.id = true
          · have hstep := Client.process_deposit_dup hlk hp hd
            have hacc : c.accepted t = false := by
              simp [Client.accepted, hp, hd]
            obtain ⟨i1, i2, i3⟩ := ih c hrest hheld hlk
            rw [hAll, hstep]
            refine ⟨i1, i2, ?_⟩
            rw [hSum, hstep, hacc]
            simpa using i3
          · have hd2 : c.hasTx t.id = false := by
              cases h : c.hasTx t.id
              · rfl
              · exact absurd h hd
            have hstep := Client.process_deposit_new hlk hp hd2
            have hacc : c.accepted t = true := by
              simp [Client.accepted, hp, hd2]
            have hheld2 : (c.process_transaction t).account.held = 0 := by
              rw [hstep]; exact hheld
            have hlk2 : (c.process_transaction t).account.locked = false := by
              rw [hstep]; exact hlk
            obtain ⟨i1, i2, i3⟩ := ih (c.process_transaction t) hrest hheld2 hlk2
            rw [hAll]
            refine ⟨i1, i2, ?_⟩
            have hdelta : (if c.accepted t then
                match t.payload with
                | .deposit a => a
                | .withdrawal a => -a
                | _ => 0
              else 0) = a := by simp [hacc, hp]
            rw [i3, hSum, hdelta, hstep]
            simp only [Account.total_funds, Account.deposit]
            ring
      | withdrawal a =>
          by_cases hd : c.hasTx t.id = true
          · have hstep := Client.process_withdrawal_dup hlk hp hd
            have hacc : c.accepted t = false := by
              simp [Client.accepted, hp, hd]
            obtain ⟨i1, i2, i3⟩ := ih c hrest hheld hlk
            rw [hAll, hstep]
            refine ⟨i1, i2, ?_⟩
            rw [hSum, hstep, hacc]
            simpa using i3
          · have hd2 : c.hasTx t.id = false := by
              cases h : c.hasTx t.id
              · rfl
              · exact absurd h hd
            by_cases hle : a ≤ c.account.available
            · have hstep := Client.process_withdrawal_ok hlk hp hd2 hle
              have hacc : c.accepted t = true := by
                simp [Client.accepted, hp, hd2, hle]
              have hheld2 : (c.process_transaction t).account.held = 0 := by
                rw [hstep]; exact hheld
              have hlk2 : (c.process_transaction t).account.locked = false := by
                rw [hstep]; exact hlk
              obtain ⟨i1, i2, i3⟩ := ih (c.process_transaction t) hrest hheld2 hlk2
              rw [hAll]
              refine ⟨i1, i2, ?_⟩
              have hdelta : (if c.accepted t then
                  match t.payload with
                  | .deposit a => a
                  | .withdrawal a => -a
                  | _ => 0
                else 0) = -a := by simp [hacc, hp]
              rw [i3, hSum, hdelta, hstep]
              simp only [Account.total_funds]
              ring
            · have hstep := Client.process_withdrawal_fail hlk hp hd2 hle
              have hacc : c.accepted t = false := by
                simp [Client.accepted, hp, hd2, hle]
              obtain ⟨i1, i2, i3⟩ := ih c hrest hheld hlk
              rw [hAll, hstep]
              refine ⟨i1, i2, ?_⟩
              rw [hSum, hstep, hacc]
              simpa using i3
      | dispute => rw [hp] at hm; simp [TxPayload.isMonetary] at hm
      | resolve => rw [hp] at hm; simp [TxPayload.isMonetary] at hm
      | chargeback => rw [hp] at hm; simp [TxPayload.isMonetary] at hm

/-- Claim C6: for every sequence consisting only of deposits and withdrawals
with non-negative amounts applied to a fresh client, after every prefix
`held = 0`, `locked = false`, `total = available`, and the total equals the
sum of accepted deposits minus accepted withdrawals (accepted means: id not
already in history and, for a withdrawal, `available >= amount` at
application time — `Client.accepted`). -/
theorem claim_C6_monetary_conservation (txs : List Transaction)
    (hdw : ∀ t ∈ txs, t.payload.isMonetary = true)
    (hok : ∀ t ∈ txs, t.payload.amountOk) (n : ℕ) :
    (Client.processAll {} (txs.take n)).account.held = 0 ∧
    (Client.processAll {} (txs.take n)).account.locked = false ∧
    (Client.processAll {} (txs.take n)).account.total_funds =
      (Client.processAll {} (txs.take n)).account.available ∧
    (Client.processAll {} (txs.take n)).account.total_funds =
      Client.acceptedSum {} (txs.take n) := by
  have _ := hok
  obtain ⟨h1, h2, h3⟩ := monetary_fold (txs.take n) {}
    (fun t ht => hdw t (List.mem_of_mem_take ht)) rfl rfl
  refine ⟨h1, h2, ?_, ?_⟩
  · simp [Account.total_funds, h1]
  · simpa [Account.total_funds] using h3

/-- A withdrawal of decimal amount 4 (= 40000 units of `10⁻⁴`), tx id 2. -/
def sampleWithdrawal : Transaction := { id := 2, client := 1, payload := .withdrawal 40000 }

/-- Witness for C6: one deposit and one accepted withdrawal. -/
theorem claim_C6_witness :
    (∀ t ∈ [sampleDeposit, sampleWithdrawal], t.payload.isMonetary = true) ∧
    (∀ t ∈ [sampleDeposit, sampleWithdrawal], t.payload.amountOk) ∧
    ((Client.processAll {} ([sampleDeposit, sampleWithdrawal].take 2)).account.held = 0 ∧
     (Client.processAll {} ([sampleDeposit, sampleWithdrawal].take 2)).account.locked = false ∧
     (Client.processAll {} ([sampleDeposit, sampleWithdrawal].take 2)).account.total_funds =
       (Client.processAll {} ([sampleDeposit, sampleWithdrawal].take 2)).account.available ∧
     (Client.processAll {} ([sampleDeposit, sampleWithdrawal].take 2)).account.total_funds =
       Client.acceptedSum {} ([sampleDeposit, sampleWithdrawal].take 2)) :=
  ⟨by decide, by decide,
   claim_C6_monetary_conservation [sampleDeposit, sampleWithdrawal] (by decide) (by decide) 2⟩

/-- Claim C7: applying the same `Deposit` or `Withdrawal` transaction twice
in immediate succession yields the same client state (account, history,
dispute sets) as applying it once — the second occurrence of the id is
ignored. Holds from any client state. -/
theorem claim_C7_idempotent (c : Client) (t : Transaction)
    (h : t.payload.isMonetary = true) :
    (c.process_transaction t).process_transaction t = c.process_transaction t := by
  by_cases hlk : c.account.locked = true
  · rw [Client.process_locked t hlk]
    exact Client.process_locked t hlk
  have hl : c.account.locked = false := by
    cases hc : c.account.locked
    · rfl
    · exact absurd hc hlk
  cases hp : t.payload with
  | deposit a =>
      by_cases hd : c.hasTx t.id = true
      · rw [Client.process_deposit_dup hl hp hd]
        exact Client.process_deposit_dup hl hp hd
      · have hd2 : c.hasTx t.id = false := by
          cases hc : c.hasTx t.id
          · rfl
          · exact absurd hc hd
        rw [Client.process_deposit_new hl hp hd2]
        exact Client.process_deposit_dup hl hp (by simp [Client.hasTx])
  | withdrawal a =>
      by_cases hd : c.hasTx t.id = true
      · rw [Client.process_withdrawal_dup hl hp hd]
        exact Client.process_withdrawal_dup hl hp hd
      · have hd2 : c.hasTx t.id = false := by
          cases hc : c.hasTx t.id
          · rfl
          · exact absurd hc hd
        by_cases hle : a ≤ c.account.available
        · rw [Client.process_withdrawal_ok hl hp hd2 hle]
          exact Client.process_withdrawal_dup hl hp (by simp [Client.hasTx])
        · rw [Client.process_withdrawal_fail hl hp hd2 hle]
          exact Client.process_withdrawal_fail hl hp hd2 hle
  | dispute => rw [hp] at h; simp [TxPayload.isMonetary] at h
  | resolve => rw [hp] at h; simp [TxPayload.isMonetary] at h
  | chargeback => rw [hp] at h; simp [TxPayload.isMonetary] at h

/-- Witness for C7: replaying the sample deposit on a fresh client. -/
theorem claim_C7_witness :
    sampleDeposit.payload.isMonetary = true ∧
    ((({} : Client).process_transaction sampleDeposit).process_transaction sampleDeposit =
      ({} : Client).process_transaction sampleDeposit) :=
  ⟨by decide, claim_C7_idempotent {} sampleDeposit (by decide)⟩

/-- Claim C8: `Deposit(id=1, amt=10)`, `Dispute(1)`, `Resolve(1)` on a fresh
client yields `available=10, held=0, total=10, locked=false` (in `10⁻⁴`
units: 100000) — the same account state as after the deposit alone; and in
general, a `Resolve` on a currently disputed stored deposit releases exactly
that deposit's amount from held back to available and erases the id from the
disputed set. -/
theorem claim_C8_resolve_roundtrip :
    ((Client.processAll {} [sampleDeposit, sampleDispute, sampleResolve]).account =
       (Client.processAll {} [sampleDeposit]).account ∧
     (Client.processAll {} [sampleDeposit, sampleDispute, sampleResolve]).account =
       { available := 100000, held := 0, locked := false }) ∧
    (∀ (c : Client) (id cl : ℕ) (t : Transaction) (a : Amount),
      c.account.locked = false → id ∈ c.disputes.txs →
      c.getTx id = some t → t.payload = .deposit a →
      c.process_transaction { id := id, client := cl, payload := .resolve } =
        { c with account := c.account.release_funds a,
                 disputes := c.disputes.resolve id }) := by
  refine ⟨⟨by decide, by decide⟩, ?_⟩
  intro c id cl t a hl hmem hg hp
  have hdis : c.disputes.is_disputed id = true :=
    (Disputes.is_disputed_true_iff _ _).mpr (Or.inl hmem)
  have hdt : c.disputed_transaction id = some t :=
    Client.disputed_transaction_eq_some.mpr ⟨hg, hdis⟩
  exact Client.process_resolve_ok hl rfl hdt (Transaction.deposited_amount_eq_some.mpr hp)

/-- Witness for C8: resolving the disputed sample deposit. -/
theorem claim_C8_witness :
    ((Client.processAll {} [sampleDeposit, sampleDispute]).account.locked = false ∧
     1 ∈ (Client.processAll {} [sampleDeposit, sampleDispute]).disputes.txs) ∧
    (Client.processAll {} [sampleDeposit, sampleDispute]).process_transaction
        { id := 1, client := 1, payload := .resolve } =
      { Client.processAll {} [sampleDeposit, sampleDispute] with
        account := (Client.processAll {} [sampleDeposit, sampleDispute]).account.release_funds 100000,
        disputes := (Client.processAll {} [sampleDeposit, sampleDispute]).disputes.resolve 1 } :=
  ⟨⟨by decide, by decide⟩,
   claim_C8_resolve_roundtrip.2 (Client.processAll {} [sampleDeposit, sampleDispute])
     1 1 sampleDeposit 100000 (by decide) (by decide) (by decide) (by decide)⟩

/-- Claim C3: the claim says every client id of the fixed id space 0–65535 is
routed without faulting; but `Engine::default` allocates only
`u16::MAX as usize = 65535` client slots (indices 0..=65534), so
`self.clients[tx.client as usize]` panics for client id 65535 — the step
returns `none` in the embedding. -/
theorem claim_C3_client_65535_faults :
    Engine.process_transaction Engine.default
      { id := 1, client := 65535, payload := .dispute } = none := by
  rw [Engine.process_transaction, dif_neg]
  simp only [Engine.default, List.length_replicate]
  omega

/-- Running the engine over a stream: on success the client-slot count is
unchanged, every processed transaction's client id was in bounds, the seen
set grows by exactly the client ids of the stream, and each slot holds the
fold of the transactions filtered to its client id. -/
theorem engine_fold : ∀ (l : List Transaction) (e e2 : Engine),
    e.processAll l = some e2 →
    e2.clients.length = e.clients.length ∧
    (∀ t ∈ l, t.client < e.clients.length) ∧
    e2.seemClients = e.seemClients ∪ (l.map Transaction.client).toFinset ∧
    (∀ i, e2.clients.getD i {} =
      (e.clients.getD i {}).processAll (l.filter (fun t => t.client == i))) := by
  intro l
  induction l with
  | nil =>
      intro e e2 h
      have he : e = e2 := by
        simpa [Engine.processAll] using h
      subst he
      refine ⟨rfl, by simp, by simp, fun i => by simp [Client.processAll]⟩
  | cons t rest ih =>
      intro e e2 h
      cases hstep : e.process_transaction t with
      | none =>
          rw [Engine.processAll, hstep] at h
          exact Option.noConfusion h
      | some e1 =>
          rw [Engine.processAll, hstep] at h
          obtain ⟨ih1, ih2, ih3, ih4⟩ := ih e1 e2 h
          unfold Engine.process_transaction at hstep
          by_cases hb : t.client < e.clients.length
          · rw [dif_pos hb] at hstep
            injection hstep with hstep
            subst hstep
            refine ⟨?_, ?_, ?_, ?_⟩
            · exact ih1.trans (List.length_set _ _ _)
            · intro u hu
              rcases List.mem_cons.mp hu with huu | huu
              · rw [huu]; exact hb
              · simpa [List.length_set] using ih2 u huu
            · rw [ih3]
              show insert t.client e.seemClients ∪ (rest.map Transaction.client).toFinset =
                e.seemClients ∪ ((t :: rest).map Transaction.client).toFinset
              rw [List.map_cons, List.toFinset_cons, Finset.insert_union, Finset.union_insert]
            · intro i
              rw [ih4 i]
              by_cases hi : t.client = i
              · subst hi
                have h1 : (e.clients.set t.client
                    ((e.clients.get ⟨t.client, hb⟩).process_transaction t)).getD t.client ({} : Client) =
                    (e.clients.get ⟨t.client, hb⟩).process_transaction t := by
                  rw [List.getD_eq_getElem?_getD, List.getElem?_set, if_pos rfl, if_pos hb]
                  rfl
                have h2 : e.clients.getD t.client ({} : Client) = e.clients.get ⟨t.client, hb⟩ := by
                  rw [List.getD_eq_getElem?_getD, List.getElem?_eq_getElem hb]
                  rfl
                have h3 : (t :: rest).filter (fun u => u.client == t.client) =
                    t :: rest.filter (fun u => u.client == t.client) := by
                  rw [List.filter_cons_of_pos]
                  simp
                show ((e.clients.set t.client _).getD t.client {}).processAll _ = _
                rw [h1, h2, h3]
                rfl
              · have h1 : (e.clients.set t.client
                    ((e.clients.get ⟨t.client, hb⟩).process_transaction t)).getD i ({} : Client) =
                    e.clients.getD i ({} : Client) := by
                  rw [List.getD_eq_getElem?_getD, List.getElem?_set_ne hi,
                      ← List.getD_eq_getElem?_getD]
                have h3 : (t :: rest).filter (fun u => u.client == i) =
                    rest.filter (fun u => u.client == i) := by
                  rw [List.filter_cons_of_neg]
                  simp [hi]
                show ((e.clients.set t.client _).getD i {}).processAll _ = _
                rw [h1, h3]
          · rw [dif_neg hb] at hstep
            exact Option.noConfusion hstep

/-- Claim C9: after successfully processing any stream, `Engine.accounts`
yields exactly one entry per client id that was passed to
`process_transaction` at least once (its keys are duplicate-free and are
exactly the client ids of the input — in particular clients whose
transactions were all no-ops still appear), no entry for unreferenced ids,
and each entry's account is the fold of that client's own transactions
starting from the fresh zero-balance unlocked state (so an all-no-op client
shows zero balances and `locked = false`). -/
theorem claim_C9_accounts (txs : List Transaction) (e2 : Engine)
    (h : Engine.default.processAll txs = some e2) :
    (e2.accounts.map Prod.fst).Nodup ∧
    (∀ i, i ∈ e2.accounts.map Prod.fst ↔ i ∈ txs.map Transaction.client) ∧
    (∀ p ∈ e2.accounts, p.2 =
      (Client.processAll {} (txs.filter (fun t => t.client == p.1))).account) := by
  obtain ⟨h1, h2, h3, h4⟩ := engine_fold txs Engine.default e2 h
  have hcomp : (Prod.fst ∘ fun j => (j, (e2.clients.getD j ({} : Client)).account)) =
      (id : ℕ → ℕ) := rfl
  refine ⟨?_, ?_, ?_⟩
  · simp only [Engine.accounts, List.map_map, hcomp, List.map_id]
    exact Finset.sort_nodup _ _
  · intro i
    simp only [Engine.accounts, List.map_map, hcomp, List.map_id, Finset.mem_sort, h3]
    show i ∈ (∅ : Finset ℕ) ∪ (txs.map Transaction.client).toFinset ↔ _
    simp
  · intro p hp
    simp only [Engine.accounts, List.mem_map] at hp
    obtain ⟨i, hi, hpeq⟩ := hp
    have hdef : Engine.default.clients.getD i ({} : Client) = {} := by
      show (List.replicate 65535 ({} : Client)).getD i {} = {}
      rw [List.getD_eq_getElem?_getD, List.getElem?_replicate]
      by_cases hlt : i < 65535
      · rw [if_pos hlt]; rfl
      · rw [if_neg hlt]; rfl
    rw [← hpeq]
    show (e2.clients.getD i {}).account = _
    rw [h4 i, hdef]

/-- Witness for C9: the empty stream succeeds and yields no accounts beyond
the (empty) seen set. -/
theorem claim_C9_witness :
    Engine.processAll Engine.default [] = some Engine.default ∧
    ((Engine.default.accounts.map Prod.fst).Nodup ∧
     (∀ i, i ∈ Engine.default.accounts.map Prod.fst ↔
        i ∈ ([] : List Transaction).map Transaction.client) ∧
     (∀ p ∈ Engine.default.accounts, p.2 =
       (Client.processAll {}
         (([] : List Transaction).filter (fun t => t.client == p.1))).account)) :=
  ⟨rfl, claim_C9_accounts [] Engine.default rfl⟩

/-- `rescale(4)` of the decimal `-5` is `-50000` units of `10⁻⁴`. -/
theorem rescale4_neg_five : rescale4 (-5) = -50000 := by
  unfold rescale4
  rw [if_neg (by norm_num)]
  have h2 : ((-(-5 : ℚ)) * 10000 + 1 / 2 : ℚ) = 100001 / 2 := by norm_num
  rw [h2]
  have h3 : (⌊(100001 / 2 : ℚ)⌋ : ℤ) = 50000 := by
    rw [Int.floor_eq_iff]
    constructor <;> norm_num
  rw [h3]

/-- Counterexample to claim C10 as stated: the parser accepts a `deposit`
record whose amount is the negative decimal `-5` and produces a `Deposit`
carrying the negative amount `-50000` (units of `10⁻⁴`) — no sign check is
performed. -/
theorem claim_C10_counterexample :
    Transaction.deserialize { typ := "deposit", client := 1, tx := 1, amount := some (-5) } =
      some { id := 1, client := 1, payload := .deposit (-50000) } ∧
    (-50000 : Amount) < 0 := by
  constructor
  · simp [Transaction.deserialize, rescale4_neg_five]
  · decide

/-- Claim C10 (amended): for every input record the parser accepts with kind
`deposit` or `withdrawal`, an amount was present and the resulting
transaction carries exactly that amount rescaled to 4 fractional digits; the
parser performs no sign check, so a negative input amount is carried through
as a negative transaction amount. -/
theorem claim_C10_amended (r : InputRecord) (t : Transaction)
    (h : Transaction.deserialize r = some t) :
    ∀ a, (t.payload = .deposit a ∨ t.payload = .withdrawal a) →
      ∃ q, r.amount = some q ∧ a = rescale4 q := by
  intro a ha
  unfold Transaction.deserialize at h
  split at h
  · cases hm : r.amount with
    | none => rw [hm] at h; simp at h
    | some q =>
        rw [hm] at h
        simp only [Option.map] at h
        injection h with h
        subst h
        rcases ha with hh | hh
        · exact ⟨q, rfl, by injection hh with hh; exact hh.symm⟩
        · exact absurd hh (by simp)
  · cases hm : r.amount with
    | none => rw [hm] at h; simp at h
    | some q =>
        rw [hm] at h
        simp only [Option.map] at h
        injection h with h
        subst h
        rcases ha with hh | hh
        · exact absurd hh (by simp)
        · exact ⟨q, rfl, by injection hh with hh; exact hh.symm⟩
  · injection h with h
    subst h
    rcases ha with hh | hh <;> exact absurd hh (by simp)
  · injection h with h
    subst h
    rcases ha with hh | hh <;> exact absurd hh (by simp)
  · injection h with h
    subst h
    rcases ha with hh | hh <;> exact absurd hh (by simp)
  · exact Option.noConfusion h

/-- Witness for the amended C10: the negative `deposit` record. -/
theorem claim_C10_witness :
    Transaction.deserialize { typ := "deposit", client := 1, tx := 1, amount := some (-5) } =
      some { id := 1, client := 1, payload := .deposit (-50000) } ∧
    (∀ a, (({ id := 1, client := 1, payload := .deposit (-50000) } : Transaction).payload = .deposit a ∨
           ({ id := 1, client := 1, payload := .deposit (-50000) } : Transaction).payload = .withdrawal a) →
      ∃ q, ({ typ := "deposit", client := 1, tx := 1, amount := some (-5) } : InputRecord).amount = some q ∧
        a = rescale4 q) :=
  ⟨by simp [Transaction.deserialize, rescale4_neg_five],
   claim_C10_amended { typ := "deposit", client := 1, tx := 1, amount := some (-5) }
     { id := 1, client := 1, payload := .deposit (-50000) }
     (by simp [Transaction.deserialize, rescale4_neg_five])⟩
